import Mathlib

/-!
# Verification of `pg_stat_monitor.c` against its specification

A shallow embedding, in Lean 4, of the algorithmic core of
`src/pg_stat_monitor.c`: the per-bucket query-text ring
(`locate_query` / `store_query`), bucket rotation (`get_next_wbucket` /
`entry_dealloc`), entry allocation (`entry_alloc`), the full reset
(`entry_reset`), the Welford statistics update and response-time
histogram classification of `pgss_store`, the jumble accumulator
(`AppendJumble`), and the tree traversal (`JumbleExpr` /
`JumbleRangeTable` / `JumbleQuery`).

C `uint64` values are modelled as `Nat` with explicit `% 2^64` where the
byte-level encoding matters; shared-memory byte buffers are modelled as
total functions `Nat → Nat` holding one byte per index, written by an
explicit `memcpy` model.  Configuration constants that live in the
missing header `pg_stat_monitor.h` (`PGSM_QUERY_MAX_LEN`,
`query_buf_size_bucket`, `PGSM_MAX`, `PGSM_MAX_BUCKETS`,
`PGSM_BUCKET_TIME`, `MAX_RESPONSE_BUCKET`, `JUMBLE_SIZE`, …) are taken
as explicit parameters, as the specification treats them as
configurable.
-/

namespace PgStatMonitor

/-! ## Byte-level memory model

`writeBytes buf p l` models `memcpy(&buf[p], l, l.length)`; `readLE k
buf p` models reading a `k`-byte little-endian unsigned integer at
offset `p` (the `memcpy(&id, &buf[...], sizeof(uint64))` pattern of
`locate_query`); `toBytesLE k v` is the little-endian byte image of `v`
(what `memcpy(&buf[...], &queryid, sizeof(uint64))` deposits). -/

def writeBytes (buf : Nat → Nat) (p : Nat) (l : List Nat) : Nat → Nat :=
  fun i => if p ≤ i ∧ i < p + l.length then l.getD (i - p) 0 else buf i

def readLE : Nat → (Nat → Nat) → Nat → Nat
  | 0, _, _ => 0
  | k + 1, buf, p => buf p + 256 * readLE k buf (p + 1)

def toBytesLE : Nat → Nat → List Nat
  | 0, _ => []
  | k + 1, v => v % 256 :: toBytesLE k (v / 256)

/-! ## Per-bucket Text Ring (`locate_query` / `store_query`)

One bucket's ring state: the byte buffer `pgss_qbuf[bucket]` and the
`query_fifo[bucket].head/.tail` indices.  `cap` is
`query_buf_size_bucket` and `maxLen` is `PGSM_QUERY_MAX_LEN`.

The C scan loop of `locate_query` has no iteration bound of its own (it
walks records until the local tail meets the head), so the embedding
carries an explicit `fuel` counter; every theorem below supplies enough
fuel for the scan to reach the head, so `fuel` never changes the
modelled behaviour on the states considered. -/

structure Ring where
  buf : Nat → Nat
  head : Nat
  tail : Nat

/-- One iteration structure of the `while (FIFO_HEAD(bucket_id) != tail)`
loop in `locate_query` (src lines 2596–2618): read the 8-byte query id
at `tail`, the 8-byte length at `tail+8`; bail out returning 0 if the
length is 0; if the caller passed a buffer (`want`), copy the record's
text out; return the id on a fingerprint match, else advance
`tail := (tail + 16 + len) % cap`.  The second component of the result
is the contents the caller's `query` buffer was last overwritten with
(`none` = never written). -/
def locateGo (cap : Nat) (buf : Nat → Nat) (headv qid : Nat) (want : Bool) :
    Nat → Nat → Option (List Nat) → Nat × Option (List Nat)
  | 0, _, acc => (0, acc)
  | fuel + 1, tail, acc =>
    if headv = tail then (0, acc)
    else
      let id := readLE 8 buf tail
      let len := readLE 8 buf (tail + 8)
      if len = 0 then (0, acc)
      else
        let acc1 := if want then some ((List.range len).map fun i => buf (tail + 16 + i))
                    else acc
        if id = qid then (qid, acc1)
        else locateGo cap buf headv qid want fuel ((tail + 16 + len) % cap) acc1

/-- `locate_query(bucket_id, queryid, query)` (src lines 2587–2620),
for the single modelled bucket.  `want = true` corresponds to
`query != NULL`. -/
def locate_query (cap : Nat) (fuel : Nat) (r : Ring) (qid : Nat) (want : Bool) :
    Nat × Option (List Nat) :=
  locateGo cap r.buf r.head qid want fuel r.tail none

/-- `store_query(queryid, query, query_len)` (src lines 2622–2658), for
the single modelled bucket.  The query text is passed as its byte list
`txt` (so `query_len = txt.length`); the stored length is truncated to
`maxLen` = `PGSM_QUERY_MAX_LEN`.  The second component is the diagnostic
emitted by `elog(INFO, ...)` on the buffer-full path (`none` = no
diagnostic). -/
def store_query (cap maxLen fuel : Nat) (r : Ring) (qid : Nat) (txt : List Nat) :
    Ring × Option String :=
  let qlen := min txt.length maxLen
  if (locate_query cap fuel r qid false).1 = qid then (r, none)
  else
    let next0 := r.head + qlen + 8 + 8
    let next := if cap ≤ next0 then 0 else next0
    if next = r.head then
      (r, some "pg_stat_monitor: no space left in shared_buffer")
    else
      let buf1 := writeBytes r.buf r.head (toBytesLE 8 qid)
      let buf2 := writeBytes buf1 (r.head + 8) (toBytesLE 8 qlen)
      let buf3 := writeBytes buf2 (r.head + 16) (txt.take qlen)
      (⟨buf3, next, r.tail⟩, none)

/-! ### Record layout of a well-formed ring

`store_query` lays records `(id, len, bytes)` down contiguously from
offset 0 (the tail is only ever reset to 0, never advanced), so the
states the program actually reaches are described by a list of stored
records. -/

/-- Size in bytes of one stored record: two `uint64` headers plus the
text. -/
def recSize (p : Nat × List Nat) : Nat := 16 + p.2.length

def sizeSum (recs : List (Nat × List Nat)) : Nat := (recs.map recSize).sum

/-- The record `p` is stored at offset `pos` of `buf`. -/
def recOK (buf : Nat → Nat) (pos : Nat) (p : Nat × List Nat) : Prop :=
  readLE 8 buf pos = p.1 ∧ readLE 8 buf (pos + 8) = p.2.length ∧
    ∀ i < p.2.length, buf (pos + 16 + i) = p.2.getD i 0

/-- The records `recs` are laid out contiguously starting at `pos`. -/
def laidOut (buf : Nat → Nat) : Nat → List (Nat × List Nat) → Prop
  | _, [] => True
  | pos, p :: rest => recOK buf pos p ∧ laidOut buf (pos + recSize p) rest

instance recOK.inst (buf : Nat → Nat) (pos : Nat) (p : Nat × List Nat) :
    Decidable (recOK buf pos p) := by
  unfold recOK; infer_instance

instance laidOut.inst (buf : Nat → Nat) :
    ∀ (pos : Nat) (recs : List (Nat × List Nat)), Decidable (laidOut buf pos recs)
  | _, [] => .isTrue trivial
  | pos, p :: rest =>
    have : Decidable (laidOut buf (pos + recSize p) rest) :=
      laidOut.inst buf (pos + recSize p) rest
    by unfold laidOut; infer_instance

/-- `represents cap r recs`: ring `r` is the state reached after storing
exactly the records `recs` (in order) into an empty ring of capacity
`cap`, none of which wrapped.  Every record has nonempty text and
headers representable as `uint64`. -/
def represents (cap : Nat) (r : Ring) (recs : List (Nat × List Nat)) : Prop :=
  r.tail = 0 ∧ r.head = sizeSum recs ∧ sizeSum recs < cap ∧
    laidOut r.buf 0 recs ∧
    ∀ p ∈ recs, p.2 ≠ [] ∧ p.1 < 2 ^ 64 ∧ p.2.length < 2 ^ 64

instance represents.inst (cap : Nat) (r : Ring) (recs : List (Nat × List Nat)) :
    Decidable (represents cap r recs) := by
  unfold represents; infer_instance

/-! ### Concrete ring states used as counterexamples -/

/-- The empty ring of one bucket right after a reset
(`head = tail = 0`, zeroed buffer). -/
def emptyRing : Ring := ⟨fun _ => 0, 0, 0⟩

/-- Ring of capacity 64 after storing one 24-byte query under
fingerprint 1: one 40-byte record, `head = 40`, `tail = 0`. -/
def c2ring1 : Ring := (store_query 64 32 4 emptyRing 1 (List.replicate 24 7)).1

/-- The result of then storing an 8-byte query under fingerprint 2:
its record needs 24 bytes, the computed next-head `40 + 24 = 64` wraps
to 0 — exactly the tail, lapping the unread record of fingerprint 1. -/
def c2res2 : Ring × Option String := store_query 64 32 4 c2ring1 2 (List.replicate 8 5)

/-- The next-head `store_query` computes for that second store
(src lines 2637–2639 with `query_len = 8`). -/
def c2next : Nat := if 64 ≤ c2ring1.head + 8 + 8 + 8 then 0 else c2ring1.head + 8 + 8 + 8

/-! ## Bucket rotation and eviction (`get_next_wbucket` / `entry_dealloc`)

`PGSM_BUCKET_TIME` (`bucketTimeCfg`) and `PGSM_MAX_BUCKETS`
(`maxBuckets`) live in the missing header; they are parameters here.
Timestamps are seconds (`tv.tv_sec`) as in the code. -/

/-- `pgssHashKey` (user, database, fingerprint, bucket). -/
structure StatKey where
  userid : Nat
  dbid : Nat
  queryid : Nat
  bucket_id : Nat
deriving DecidableEq

/-- `pgssAggHashKey` (dimension id, dimension type, fingerprint,
bucket). -/
structure AggKey where
  id : Nat
  type : Nat
  queryid : Nat
  bucket_id : Nat
deriving DecidableEq

/-- The shared state touched by rotation: the statistics hash (keys),
the rollup hash (keys), the per-bucket entry counters, the per-bucket
text-ring head/tail, the per-bucket response-time histogram
(`pgssBucketEntries[b]->counters.resp_calls`) and timestamp, the
current write bucket and the last-rotation timestamp. -/
structure RotState where
  stats : List StatKey
  agg : List AggKey
  bucket_entry : Int → Nat
  fifoHead : Nat → Nat
  fifoTail : Nat → Nat
  respCalls : Nat → List Nat
  bucketTimestamp : Nat → Nat
  current_wbucket : Nat
  prev_bucket_usec : Nat

/-- `entry_dealloc(bucket)` (src lines 1425–1463): zero the bucket's
entry counter, then remove every statistics entry and every rollup
entry whose key's `bucket_id` equals `bucket` (all entries when
`bucket < 0`; the `uint64 == int` comparison promotes `bucket`, so a
negative `bucket` matches nothing directly). -/
def entry_dealloc (bucket : Int) (s : RotState) : RotState :=
  { s with
    bucket_entry := fun b => if b = bucket then 0 else s.bucket_entry b,
    stats := s.stats.filter fun e => ¬ ((e.bucket_id : Int) = bucket ∨ bucket < 0),
    agg := s.agg.filter fun e => ¬ ((e.bucket_id : Int) = bucket ∨ bucket < 0) }

/-- `get_next_wbucket(pgss)` (src lines 1389–1418): if more than
`PGSM_BUCKET_TIME` seconds elapsed since the last rotation, advance the
bucket id by one (wrapping at `PGSM_MAX_BUCKETS`), evict that bucket's
statistics and rollup entries, reset that bucket's text-ring head and
tail to 0, update the rotation timestamp and the bucket's current-time
stamp, and return the new id; otherwise return the current one.  The
response-time histogram `respCalls` is not touched on either path. -/
def get_next_wbucket (bucketTimeCfg maxBuckets now : Nat) (s : RotState) :
    Nat × RotState :=
  if bucketTimeCfg < now - s.prev_bucket_usec then
    let b := if s.current_wbucket + 1 = maxBuckets then 0 else s.current_wbucket + 1
    let s1 := entry_dealloc (b : Int) s
    (b, { s1 with
          fifoHead := fun x => if x = b then 0 else s1.fifoHead x,
          fifoTail := fun x => if x = b then 0 else s1.fifoTail x,
          prev_bucket_usec := now,
          bucketTimestamp := fun x => if x = b then now else s1.bucketTimestamp x })
  else (s.current_wbucket, s)

/-- The caller's side in `pgss_store` (src lines 907–913): take the
bucket id from `get_next_wbucket` and make it the current write
bucket. -/
def pgss_update_bucket (bucketTimeCfg maxBuckets now : Nat) (s : RotState) :
    RotState :=
  let p := get_next_wbucket bucketTimeCfg maxBuckets now s
  if p.1 ≠ p.2.current_wbucket then { p.2 with current_wbucket := p.1 } else p.2

/-- A concrete rotation state: current bucket 0 of 2, last rotation at
time 0, and 7 calls already recorded in bucket 1's response-time
histogram from its previous life. -/
def c3state : RotState :=
  ⟨[⟨10, 20, 30, 1⟩], [⟨40, 0, 30, 1⟩], fun _ => 0, fun _ => 5, fun _ => 0,
    fun b => if b = 1 then [7] else [], fun _ => 0, 0, 0⟩

/-! ## Entry allocation (`entry_alloc` and the `pgss_store` miss path)

`PGSM_MAX` (`pgsmMax`) and `PGSM_MAX_BUCKETS` (`maxBuckets`) are
parameters from the missing header, as is `USAGE_INIT`
(`usageInit`).  An entry's modelled payload is the `calls[0].usage`
value seeded at creation (the rest of `Counters` is zeroed). -/

structure AllocState where
  entries : List (StatKey × Rat)
  bucket_entry : Nat → Nat
  bucket_overflow : Nat → Nat
  current_wbucket : Nat
  cur_median_usage : Rat

/-- `entry_alloc` (src lines 1354–1387): refuse (returning NULL) when
the current bucket has reached its share `PGSM_MAX / PGSM_MAX_BUCKETS`
(incrementing the bucket's overflow counter) or when the table is at
`PGSM_MAX`; otherwise find-or-create the entry, initializing a created
entry's counters with the sticky/default usage. -/
def entry_alloc (pgsmMax maxBuckets : Nat) (usageInit : Rat) (s : AllocState)
    (key : StatKey) (sticky : Bool) : Option StatKey × AllocState :=
  if pgsmMax / maxBuckets ≤ s.bucket_entry s.current_wbucket then
    (none, { s with bucket_overflow := fun b =>
      if b = s.current_wbucket then s.bucket_overflow b + 1 else s.bucket_overflow b })
  else if pgsmMax ≤ s.entries.length then
    (none, s)
  else if (s.entries.map Prod.fst).contains key then
    (some key, s)
  else
    (some key,
      { s with
        entries := s.entries ++ [(key, if sticky then s.cur_median_usage else usageInit)],
        bucket_entry := fun b =>
          if b = s.current_wbucket then s.bucket_entry b + 1 else s.bucket_entry b })

/-- The lookup/create phase of `pgss_store` (src lines 916–944): search
for the key; when absent, call `entry_alloc`; when that returns NULL,
jump to `exit` — no error is raised and no counter update is performed.
The boolean result tells whether an entry is available for the
subsequent counter update. -/
def pgss_store_alloc (pgsmMax maxBuckets : Nat) (usageInit : Rat) (s : AllocState)
    (key : StatKey) (sticky : Bool) : AllocState × Bool :=
  if (s.entries.map Prod.fst).contains key then (s, true)
  else
    match entry_alloc pgsmMax maxBuckets usageInit s key sticky with
    | (none, s1) => (s1, false)
    | (some _, s1) => (s1, true)

/-- A concrete allocation state: two entries in bucket 0, bucket 0's
entry counter at 2. -/
def c4state : AllocState :=
  ⟨[(⟨1, 1, 1, 0⟩, 0), (⟨2, 1, 1, 0⟩, 0)], fun _ => 2, fun _ => 0, 0, 0⟩

/-! ## Statistics update in `pgss_store` (src lines 973–1013)

The C code computes in `double`; the embedding uses exact rationals, so
the incremental/two-pass agreement below is the exact-arithmetic
content of the claim. -/

/-- The per-kind call/timing block of `Counters` that the Welford
update touches: `calls`, `total_time`, `min_time`, `max_time`,
`mean_time`, `sum_var_time`. -/
structure TimeStat where
  calls : Nat
  total_time : Rat
  min_time : Rat
  max_time : Rat
  mean_time : Rat
  sum_var_time : Rat
deriving DecidableEq

/-- A fresh entry's zeroed counters (`memset(&entry->counters, 0, ...)`). -/
def initTimeStat : TimeStat := ⟨0, 0, 0, 0, 0, 0⟩

/-- One measurement applied to an entry (src lines 975–1002): bump the
call count and total; on the first call seed min/max/mean from the
measurement; afterwards update the mean and the running-variance
accumulator by Welford's formulas and fold min/max. -/
def updateTimeStat (st : TimeStat) (x : Rat) : TimeStat :=
  let calls1 := st.calls + 1
  let total1 := st.total_time + x
  if calls1 = 1 then
    { calls := calls1, total_time := total1, min_time := x, max_time := x,
      mean_time := x, sum_var_time := st.sum_var_time }
  else
    let old_mean := st.mean_time
    let mean1 := old_mean + (x - old_mean) / calls1
    { calls := calls1, total_time := total1,
      min_time := if x < st.min_time then x else st.min_time,
      max_time := if st.max_time < x then x else st.max_time,
      mean_time := mean1,
      sum_var_time := st.sum_var_time + (x - old_mean) * (x - mean1) }

/-- Recording a sequence of measurements on a fresh entry. -/
def runTimeStats (xs : List Rat) : TimeStat := xs.foldl updateTimeStat initTimeStat

/-- Direct two-pass mean. -/
def directMean (xs : List Rat) : Rat := xs.sum / xs.length

/-- Direct two-pass sum of squared deviations from the mean. -/
def directSumSqDev (xs : List Rat) : Rat :=
  (xs.map fun x => (x - directMean xs) ^ 2).sum

/-! ## Response-time histogram classification (src lines 1004–1013)

`PGSM_RESPOSE_TIME_LOWER_BOUND` (`lower`), `PGSM_RESPOSE_TIME_STEP`
(`stepw`) and `MAX_RESPONSE_BUCKET` (`nbuckets`) are configuration
constants from the missing header, taken as parameters. -/

/-- The histogram update of one recorded duration `t`: the `for` loop
scans cells `0 … MAX_RESPONSE_BUCKET-2` and increments the first cell
with `t < lower + stepw * i`, breaking out; a separate `if` increments
the last cell when `lower + stepw * MAX_RESPONSE_BUCKET < t`. -/
def respUpdate (lower stepw : Rat) (nbuckets : Nat) (t : Rat) (resp : Nat → Nat) :
    Nat → Nat :=
  let resp1 :=
    match (List.range (nbuckets - 1)).find?
        (fun i : Nat => decide (t < lower + stepw * (i : Rat))) with
    | some i => fun j => if j = i then resp j + 1 else resp j
    | none => resp
  if lower + stepw * (nbuckets : Rat) < t then
    fun j => if j = nbuckets - 1 then resp1 j + 1 else resp1 j
  else resp1

/-- Invariant tying a `TimeStat` to the running sum `S` and running sum
of squares `Q` of the measurements folded into it. -/
def StatInv (st : TimeStat) (S Q : Rat) : Prop :=
  st.total_time = S ∧
  (st.calls = 0 → S = 0 ∧ Q = 0 ∧ st.mean_time = 0 ∧ st.sum_var_time = 0) ∧
  (0 < st.calls → st.mean_time = S / st.calls ∧
    st.sum_var_time = Q - S ^ 2 / st.calls)

/-! ## Full reset (`entry_reset`, src lines 1468–1506)

`entry_reset` walks all four hash tables.  The statistics and rollup
loops remove each entry under its own key; but the bucket-table and
wait-event loops pass `&dbentry->key`, where `dbentry` is the rollup
loop's cursor — and that loop's condition
`while ((dbentry = hash_seq_search(...)) != NULL)` assigns **NULL** to
`dbentry` on exit.  So whenever the bucket table or the wait-event
table is nonempty, the first iteration of its loop makes `hash_search`
read the removal key through a null pointer: a crash / undefined
behaviour, modelled as `none`.  (Both tables are pre-populated at
startup, src lines 308–339.) -/

/-- The four shared hash tables (key sets) and the current write
bucket.  Bucket keys and wait-event keys are single `uint64`s. -/
structure Tables where
  qhash : List StatKey
  agghash : List AggKey
  buckethash : List Nat
  waiteventshash : List Nat
  current_wbucket : Nat
deriving DecidableEq

/-- `entry_reset()` (src lines 1468–1506): the first two loops empty
`pgss_hash` and `pgss_agghash`, each entry removed under its own key;
after the rollup loop its cursor `dbentry` is NULL, so the bucket-table
loop (line 1494) and the wait-event loop (line 1500) dereference a null
pointer on their first iteration — the reset crashes (undefined
behaviour, `none`) whenever the corresponding table is nonempty.  Only
when both tables are empty does the function reach the end, resetting
`current_wbucket` to 0. -/
def entry_reset (t : Tables) : Option Tables :=
  if t.buckethash = [] then
    if t.waiteventshash = [] then some ⟨[], [], [], [], 0⟩
    else none
  else none

/-! ## Jumble accumulator (`AppendJumble`, src lines 1512–1543)

The accumulator buffer's valid prefix is a byte list; `B` is
`JUMBLE_SIZE` from the missing header ("a rolling accumulator buffer of
fixed size B" in the spec), constrained by `8 < B` so that folding —
which leaves an 8-byte hash — makes room.  The external
`hash_any_extended` is a parameter `hv` producing the `uint64`
`start_hash` whose 8 bytes are memcpy'd over the buffer. -/

/-- The fold step at the top of `AppendJumble`'s loop: when the buffer
is full (`jumble_len >= JUMBLE_SIZE`), replace its contents with the
8-byte hash of its first `JUMBLE_SIZE` bytes. -/
def foldIfFull (B : Nat) (hv : List Nat → Nat) (jumble : List Nat) : List Nat :=
  if B ≤ jumble.length then toBytesLE 8 (hv (jumble.take B)) else jumble

/-- `part_size = Min(size, JUMBLE_SIZE - jumble_len)` for the current
iteration (after the possible fold). -/
def partSize (B : Nat) (hv : List Nat → Nat) (jumble item : List Nat) : Nat :=
  min item.length (B - (foldIfFull B hv jumble).length)

/-- `AppendJumble(jstate, item, size)`: repeatedly fold when full, then
copy the next `part_size` bytes of `item` into the buffer, until the
whole item is consumed. -/
def appendJumble (B : Nat) (hB : 8 < B) (hv : List Nat → Nat) :
    List Nat → List Nat → List Nat
  | jumble, [] => jumble
  | jumble, x :: xs =>
    appendJumble B hB hv
      (foldIfFull B hv jumble ++ (x :: xs).take (partSize B hv jumble (x :: xs)))
      ((x :: xs).drop (partSize B hv jumble (x :: xs)))
termination_by _ item => item.length
decreasing_by
  simp only [List.length_drop]
  have hfl : (foldIfFull B hv jumble).length < B := by
    unfold foldIfFull
    split
    · have h8 : (toBytesLE 8 (hv (jumble.take B))).length = 8 := rfl
      omega
    · next h => omega
  have hp : 1 ≤ partSize B hv jumble (x :: xs) := by
    unfold partSize
    have h1 : 0 < (x :: xs).length := by simp
    omega
  have hp2 : partSize B hv jumble (x :: xs) ≤ (x :: xs).length := by
    unfold partSize
    omega
  omega

/-! ## Tree traversal (`JumbleQuery` / `JumbleRangeTable` / `JumbleExpr`)

A representative subset of the node kinds handled by `JumbleExpr`
(src lines 1656–2141) and `JumbleRangeTable` (src lines 1592–1640):
`Var`, `Const`, `OpExpr`, `BoolExpr`, `SubLink` (which recurses into
`JumbleQuery`), `List`, and the unrecognized-kind default; range-table
entries `RTE_RELATION`, `RTE_JOIN`, `RTE_CTE`, `RTE_SUBQUERY` and the
unrecognized default.  `APP_JUMB(x)` is modelled as appending the value
as one token to the jumble sequence (the byte-level accumulator is
verified separately via `appendJumble`); `elog(INFO, ...)` appends to a
log, `elog(ERROR, ...)` — which longjmps out of the traversal — is
`Except.error`.  Nullable node pointers are `Option` (`JumbleExpr`
returns immediately on `NULL`). -/

mutual
inductive Expr where
  | evar (varno varattno varlevelsup : Nat)
  | econst (consttype : Nat) (location : Int)
  | eopExpr (opno : Nat) (args : Option Expr)
  | eboolExpr (boolop : Nat) (args : Option Expr)
  | esubLink (subLinkType subLinkId : Nat) (testexpr : Option Expr) (subselect : Query)
  | elist (items : ExprList)
  | eunknown (tag : Nat)

inductive ExprList where
  | nil
  | cons (head : Expr) (tail : ExprList)

inductive RangeTblEntry where
  | rteRelation (relid : Nat) (tablesample : Option Expr)
  | rteJoin (jointype : Nat)
  | rteCTE (ctename : String) (ctelevelsup : Nat)
  | rteSubquery (subquery : Query)
  | rteUnknown (rtekind : Nat)

inductive RTEList where
  | nil
  | cons (head : RangeTblEntry) (tail : RTEList)

inductive Query where
  | mk (commandType : Nat) (rtable : RTEList) (jointreeQuals : Option Expr)
end

/-- The jumble state: the token sequence, the recorded constant
locations (`clocations`), and the diagnostic log. -/
structure JState where
  jumble : List Nat
  clocations : List Int
  log : List String
deriving DecidableEq

/-- `APP_JUMB`. -/
def appJ (v : Nat) (s : JState) : JState := { s with jumble := s.jumble ++ [v] }

/-- `APP_JUMB_STRING`: the string's bytes plus the terminating NUL. -/
def appJStr (str : String) (s : JState) : JState :=
  { s with jumble := s.jumble ++ str.toList.map Char.toNat ++ [0] }

/-- `RecordConstLocation` (src lines 2147–2167): record nonnegative
locations only. -/
def recordConstLocation (location : Int) (s : JState) : JState :=
  if 0 ≤ location then { s with clocations := s.clocations ++ [location] } else s

/-- `rtekind` discriminants (PostgreSQL `RTEKind`): `RTE_RELATION = 0`,
`RTE_SUBQUERY = 1`, `RTE_JOIN = 2`, `RTE_CTE = 6`. -/
def rteKind : RangeTblEntry → Nat
  | .rteRelation _ _ => 0
  | .rteSubquery _ => 1
  | .rteJoin _ => 2
  | .rteCTE _ _ => 6
  | .rteUnknown k => k

/-- `nodeTag` discriminants (model codes; an unknown node carries its
raw tag). -/
def exprTag : Expr → Nat
  | .evar _ _ _ => 1
  | .econst _ _ => 2
  | .eopExpr _ _ => 3
  | .eboolExpr _ _ => 4
  | .esubLink _ _ _ _ => 5
  | .elist _ => 6
  | .eunknown tag => tag

mutual

/-- `JumbleExpr` on a nullable node: `if (node == NULL) return`. -/
def jumbleExprOpt : Option Expr → JState → Except String JState
  | none, s => .ok s
  | some e, s => jumbleExpr e s

/-- `JumbleExpr` (src lines 1656–2141): append the node tag, then the
significant fields, recursing into children; the default case logs
`"unrecognized node type"` at `INFO` and stumbles along. -/
def jumbleExpr : Expr → JState → Except String JState
  | .evar varno varattno varlevelsup, s =>
      .ok (appJ varlevelsup (appJ varattno (appJ varno (appJ 1 s))))
  | .econst consttype location, s =>
      .ok (recordConstLocation location (appJ consttype (appJ 2 s)))
  | .eopExpr opno args, s => jumbleExprOpt args (appJ opno (appJ 3 s))
  | .eboolExpr boolop args, s => jumbleExprOpt args (appJ boolop (appJ 4 s))
  | .esubLink slt slid testexpr subselect, s => do
      let s1 ← jumbleExprOpt testexpr (appJ slid (appJ slt (appJ 5 s)))
      jumbleQuery subselect s1
  | .elist items, s => jumbleExprList items (appJ 6 s)
  | .eunknown tag, s =>
      .ok { appJ tag s with log := s.log ++ ["unrecognized node type"] }

/-- The `T_List` iteration (`foreach` at src lines 2050–2054). -/
def jumbleExprList : ExprList → JState → Except String JState
  | .nil, s => .ok s
  | .cons e rest, s => do jumbleExprList rest (← jumbleExpr e s)

/-- `JumbleRangeTable` (src lines 1592–1640): for each RTE append its
`rtekind` and the kind-specific fields; the default case raises
`elog(ERROR, "unrecognized RTE kind")`, aborting the traversal. -/
def jumbleRangeTable : RTEList → JState → Except String JState
  | .nil, s => .ok s
  | .cons rte rest, s =>
      match rte with
      | .rteRelation relid ts => do
          jumbleRangeTable rest (← jumbleExprOpt ts (appJ relid (appJ (rteKind rte) s)))
      | .rteSubquery q => do
          jumbleRangeTable rest (← jumbleQuery q (appJ (rteKind rte) s))
      | .rteJoin jt => jumbleRangeTable rest (appJ jt (appJ (rteKind rte) s))
      | .rteCTE name lvl =>
          jumbleRangeTable rest (appJ lvl (appJStr name (appJ (rteKind rte) s)))
      | .rteUnknown _ => .error "unrecognized RTE kind"

/-- `JumbleQuery` (src lines 1563–1587), restricted to the modelled
fields: command type, range table, join-tree quals. -/
def jumbleQuery : Query → JState → Except String JState
  | .mk commandType rtable quals, s => do
      let s1 ← jumbleRangeTable rtable (appJ commandType s)
      jumbleExprOpt quals s1

end

/-- A range-table list contains an entry of unrecognized kind. -/
def containsUnknownRTE : RTEList → Bool
  | .nil => false
  | .cons (.rteUnknown _) _ => true
  | .cons _ rest => containsUnknownRTE rest

/-! ## Theorems -/

theorem toBytesLE_length (k v : Nat) : (toBytesLE k v).length = k := by
  induction k generalizing v with
  | zero => rfl
  | succ k ih => simp [toBytesLE, ih]

theorem writeBytes_apply (buf : Nat → Nat) (p : Nat) (l : List Nat) (i : Nat) :
    writeBytes buf p l i =
      if p ≤ i ∧ i < p + l.length then l.getD (i - p) 0 else buf i := rfl

theorem writeBytes_apply_lt (buf : Nat → Nat) (p : Nat) (l : List Nat) (i : Nat)
    (h : i < p) : writeBytes buf p l i = buf i := by
  simp only [writeBytes]
  rw [if_neg]
  rintro ⟨h1, _⟩
  omega

theorem writeBytes_apply_ge (buf : Nat → Nat) (p : Nat) (l : List Nat) (i : Nat)
    (h : p + l.length ≤ i) : writeBytes buf p l i = buf i := by
  simp only [writeBytes]
  rw [if_neg]
  rintro ⟨_, h2⟩
  omega

theorem writeBytes_apply_in (buf : Nat → Nat) (p : Nat) (l : List Nat) (i : Nat)
    (h1 : p ≤ i) (h2 : i < p + l.length) :
    writeBytes buf p l i = l.getD (i - p) 0 := by
  simp only [writeBytes]
  rw [if_pos ⟨h1, h2⟩]

/-- `readLE` only looks at bytes in `[p, p+k)`. -/
theorem readLE_congr (k : Nat) (buf1 buf2 : Nat → Nat) (p : Nat)
    (h : ∀ i, p ≤ i → i < p + k → buf1 i = buf2 i) :
    readLE k buf1 p = readLE k buf2 p := by
  induction k generalizing p with
  | zero => rfl
  | succ k ih =>
    simp only [readLE]
    rw [h p (le_refl p) (by omega), ih (p + 1) (fun i hi1 hi2 => h i (by omega) (by omega))]

theorem toBytesLE_getD (k v j : Nat) (hj : j < k) :
    (toBytesLE k v).getD j 0 = v / 256 ^ j % 256 := by
  induction k generalizing v j with
  | zero => omega
  | succ k ih =>
    cases j with
    | zero => simp [toBytesLE]
    | succ j =>
      simp only [toBytesLE, List.getD_cons_succ]
      rw [ih (v / 256) j (by omega)]
      rw [Nat.div_div_eq_div_mul, pow_succ]
      ring_nf

/-- Reading back `k` little-endian bytes of `v` yields `v % 256^k`. -/
theorem readLE_writeBytes (k v : Nat) (buf : Nat → Nat) (p : Nat) :
    readLE k (writeBytes buf p (toBytesLE k v)) p = v % 256 ^ k := by
  induction k generalizing v buf p with
  | zero => simp [readLE, Nat.mod_one]
  | succ k ih =>
    simp only [readLE]
    have hb : writeBytes buf p (toBytesLE (k + 1) v) p = v % 256 := by
      rw [writeBytes_apply_in _ _ _ _ (le_refl p) (by simp [toBytesLE_length])]
      simp [toBytesLE]
    rw [hb]
    have hcongr : readLE k (writeBytes buf p (toBytesLE (k + 1) v)) (p + 1) =
        readLE k (writeBytes buf (p + 1) (toBytesLE k (v / 256))) (p + 1) := by
      apply readLE_congr
      intro i hi1 hi2
      rw [writeBytes_apply_in _ _ _ _ (by omega) (by simp [toBytesLE_length]; omega),
          writeBytes_apply_in _ _ _ _ (by omega) (by simp [toBytesLE_length]; omega)]
      have hip : i - p = (i - (p + 1)) + 1 := by omega
      rw [hip]
      simp only [toBytesLE, List.getD_cons_succ]
    rw [hcongr, ih]
    -- v % 256 + 256 * (v / 256 % 256 ^ k) = v % 256 ^ (k+1)
    have hq : v = 256 ^ (k + 1) * (v / 256 / 256 ^ k) +
        (256 * (v / 256 % 256 ^ k) + v % 256) := by
      calc v = 256 * (v / 256) + v % 256 := (Nat.div_add_mod v 256).symm
        _ = 256 * (256 ^ k * (v / 256 / 256 ^ k) + v / 256 % 256 ^ k) + v % 256 := by
              conv_rhs => rw [Nat.div_add_mod]
        _ = 256 ^ (k + 1) * (v / 256 / 256 ^ k) +
            (256 * (v / 256 % 256 ^ k) + v % 256) := by ring
    have hm : v / 256 % 256 ^ k < 256 ^ k :=
      Nat.mod_lt _ (pow_pos (by norm_num) k)
    have hr : v % 256 < 256 := Nat.mod_lt _ (by norm_num)
    have hlt : 256 * (v / 256 % 256 ^ k) + v % 256 < 256 ^ (k + 1) := by
      calc 256 * (v / 256 % 256 ^ k) + v % 256
          < 256 * (v / 256 % 256 ^ k) + 256 := by omega
        _ = 256 * (v / 256 % 256 ^ k + 1) := by ring
        _ ≤ 256 * 256 ^ k := Nat.mul_le_mul_left _ (by omega)
        _ = 256 ^ (k + 1) := by ring
    have h1 : v % 256 ^ (k + 1) = 256 * (v / 256 % 256 ^ k) + v % 256 := by
      conv_lhs => rw [hq]
      rw [Nat.mul_add_mod, Nat.mod_eq_of_lt hlt]
    omega

theorem sizeSum_nil : sizeSum [] = 0 := rfl

theorem sizeSum_cons (p : Nat × List Nat) (rest : List (Nat × List Nat)) :
    sizeSum (p :: rest) = recSize p + sizeSum rest := by
  simp [sizeSum]

theorem sizeSum_append (a b : List (Nat × List Nat)) :
    sizeSum (a ++ b) = sizeSum a + sizeSum b := by
  simp [sizeSum]

/-- `laidOut` only looks at the bytes the records occupy. -/
theorem laidOut_congr (buf1 buf2 : Nat → Nat) :
    ∀ (recs : List (Nat × List Nat)) (pos : Nat),
      (∀ i, i < pos + sizeSum recs → buf2 i = buf1 i) →
      laidOut buf1 pos recs → laidOut buf2 pos recs
  | [], _, _, _ => trivial
  | p :: rest, pos, hagree, hlaid => by
    obtain ⟨⟨hid, hlen, htxt⟩, hrest⟩ := hlaid
    have hsz : sizeSum (p :: rest) = recSize p + sizeSum rest := sizeSum_cons p rest
    refine ⟨⟨?_, ?_, ?_⟩, ?_⟩
    · rw [← hid]
      apply readLE_congr
      intro i hi1 hi2
      apply hagree
      have : recSize p = 16 + p.2.length := rfl
      omega
    · rw [← hlen]
      apply readLE_congr
      intro i hi1 hi2
      apply hagree
      have : recSize p = 16 + p.2.length := rfl
      omega
    · intro i hi
      rw [← htxt i hi]
      apply hagree
      have : recSize p = 16 + p.2.length := rfl
      omega
    · exact laidOut_congr buf1 buf2 rest (pos + recSize p)
        (fun i hi => hagree i (by omega)) hrest

theorem laidOut_append (buf : Nat → Nat) :
    ∀ (a b : List (Nat × List Nat)) (pos : Nat),
      laidOut buf pos (a ++ b) ↔ laidOut buf pos a ∧ laidOut buf (pos + sizeSum a) b
  | [], b, pos => by simp [laidOut, sizeSum_nil]
  | p :: rest, b, pos => by
    simp only [List.cons_append, laidOut, sizeSum_cons, List.append_eq]
    rw [laidOut_append buf rest b (pos + recSize p)]
    constructor
    · rintro ⟨h1, h2, h3⟩
      exact ⟨⟨h1, h2⟩, by rw [← Nat.add_assoc]; exact h3⟩
    · rintro ⟨⟨h1, h2⟩, h3⟩
      exact ⟨h1, h2, by rw [Nat.add_assoc]; exact h3⟩

/-- Scanning a ring whose laid-out records do not contain the searched
fingerprint reaches the head and returns 0 (absent). -/
theorem locateGo_absent (cap : Nat) (buf : Nat → Nat) (qid headv : Nat) (want : Bool) :
    ∀ (recs : List (Nat × List Nat)) (pos fuel : Nat) (acc : Option (List Nat)),
      laidOut buf pos recs →
      (∀ p ∈ recs, p.2 ≠ []) →
      headv = pos + sizeSum recs →
      headv < cap →
      qid ∉ recs.map Prod.fst →
      recs.length + 1 ≤ fuel →
      (locateGo cap buf headv qid want fuel pos acc).1 = 0
  | [], pos, fuel, acc, _, _, hhead, _, _, hfuel => by
    obtain ⟨f, rfl⟩ : ∃ f, fuel = f + 1 := ⟨fuel - 1, by omega⟩
    rw [hhead, sizeSum_nil]
    simp [locateGo]
  | p :: rest, pos, fuel, acc, hlaid, hne, hhead, hcap, hmem, hfuel => by
    obtain ⟨f, rfl⟩ : ∃ f, fuel = f + 1 := ⟨fuel - 1, by omega⟩
    obtain ⟨⟨hid, hlen, _⟩, hrest⟩ := hlaid
    have hsz : recSize p = 16 + p.2.length := rfl
    have hszsum : sizeSum (p :: rest) = recSize p + sizeSum rest := sizeSum_cons p rest
    have hne0 : p.2.length ≠ 0 := by
      have := hne p (List.mem_cons_self p rest)
      simpa [List.length_eq_zero] using this
    have hqid : p.1 ≠ qid := by
      intro h
      exact hmem (by simp [← h])
    simp only [locateGo]
    rw [if_neg (by omega : ¬ headv = pos)]
    simp only [hid, hlen]
    rw [if_neg hne0, if_neg hqid]
    have hmod : (pos + 16 + p.2.length) % cap = pos + recSize p := by
      rw [Nat.mod_eq_of_lt (by omega)]
      omega
    rw [hmod]
    exact locateGo_absent cap buf qid headv want rest (pos + recSize p) f _
      hrest (fun q hq => hne q (List.mem_cons_of_mem p hq))
      (by omega) hcap (fun h => hmem (by simp at h ⊢; exact Or.inr h))
      (by simp only [List.length_cons] at hfuel; omega)

set_option maxHeartbeats 1000000 in
/-- Scanning a ring whose records are `pre ++ [(qid, txt)]`, where `pre`
does not contain the fingerprint `qid`, finds the last record and
returns its fingerprint and a copy of its text. -/
theorem locateGo_finds (cap : Nat) (buf : Nat → Nat) (qid : Nat) (txt : List Nat)
    (headv : Nat) :
    ∀ (pre : List (Nat × List Nat)) (pos fuel : Nat) (acc : Option (List Nat)),
      laidOut buf pos (pre ++ [(qid, txt)]) →
      (∀ p ∈ pre, p.2 ≠ []) →
      txt ≠ [] →
      headv = pos + sizeSum (pre ++ [(qid, txt)]) →
      headv < cap →
      qid ∉ pre.map Prod.fst →
      pre.length + 1 ≤ fuel →
      locateGo cap buf headv qid true fuel pos acc = (qid, some txt)
  | [], pos, fuel, acc, hlaid, _, htxt, hhead, _, _, hfuel => by
    obtain ⟨f, rfl⟩ : ∃ f, fuel = f + 1 := ⟨fuel - 1, by omega⟩
    obtain ⟨⟨hid, hlen, hbytes⟩, -⟩ := hlaid
    have hsz : sizeSum ([] ++ [(qid, txt)]) = 16 + txt.length := by
      simp [sizeSum, recSize]
    have hne0 : txt.length ≠ 0 := by simpa [List.length_eq_zero] using htxt
    simp only [locateGo]
    rw [if_neg (by omega : ¬ headv = pos)]
    simp only [hid, hlen]
    rw [if_neg hne0]
    simp only [if_true]
    congr 1
    congr 1
    apply List.ext_getElem (by simp)
    intro i h1 h2
    simp only [List.getElem_map, List.getElem_range]
    rw [hbytes i (by simpa using h1)]
    exact List.getD_eq_getElem txt 0 h2
  | p :: rest, pos, fuel, acc, hlaid, hne, htxt, hhead, hcap, hmem, hfuel => by
    obtain ⟨f, rfl⟩ : ∃ f, fuel = f + 1 := ⟨fuel - 1, by omega⟩
    obtain ⟨⟨hid, hlen, -⟩, hrest⟩ := hlaid
    have hsz : recSize p = 16 + p.2.length := rfl
    have hszsum : sizeSum ((p :: rest) ++ [(qid, txt)]) =
        recSize p + sizeSum (rest ++ [(qid, txt)]) := by
      simp only [List.cons_append]; exact sizeSum_cons p _
    have hpos : 0 < sizeSum (rest ++ [(qid, txt)]) := by
      rw [sizeSum_append]
      have : sizeSum [(qid, txt)] = 16 + txt.length := by simp [sizeSum, recSize]
      omega
    have hne0 : p.2.length ≠ 0 := by
      have := hne p (List.mem_cons_self p rest)
      simpa [List.length_eq_zero] using this
    have hqid : p.1 ≠ qid := by
      intro h
      exact hmem (by simp [← h])
    simp only [locateGo]
    rw [if_neg (by omega : ¬ headv = pos)]
    simp only [hid, hlen]
    rw [if_neg hne0, if_neg hqid]
    have hmod : (pos + 16 + p.2.length) % cap = pos + recSize p := by
      rw [Nat.mod_eq_of_lt (by omega)]
      omega
    rw [hmod]
    exact locateGo_finds cap buf qid txt headv rest (pos + recSize p) f _
      hrest (fun q hq => hne q (List.mem_cons_of_mem p hq)) htxt
      (by omega) hcap (fun h => hmem (by simp at h ⊢; exact Or.inr h))
      (by simp only [List.length_cons] at hfuel; omega)

theorem take_min_eq (txt : List Nat) (maxLen : Nat) :
    txt.take (min txt.length maxLen) = txt.take maxLen := by
  rcases le_total txt.length maxLen with h | h
  · rw [min_eq_left h, List.take_length, List.take_of_length_le h]
  · rw [min_eq_right h]

/-- A successful, non-wrapping `store_query` of a fresh fingerprint
appends one record: the ring afterwards represents `recs ++ [(qid,
txt.take maxLen)]`, and no capacity diagnostic is emitted. -/
theorem store_query_append (cap maxLen fuel : Nat) (r : Ring)
    (recs : List (Nat × List Nat)) (qid : Nat) (txt : List Nat)
    (hrep : represents cap r recs)
    (hnot : qid ∉ recs.map Prod.fst) (hq0 : qid ≠ 0) (hqlt : qid < 2 ^ 64)
    (htxt : txt ≠ []) (hmax : 0 < maxLen)
    (hfit : sizeSum recs + (16 + min txt.length maxLen) < cap)
    (hcap64 : cap ≤ 2 ^ 64)
    (hfuel : recs.length + 1 ≤ fuel) :
    (store_query cap maxLen fuel r qid txt).2 = none ∧
      represents cap (store_query cap maxLen fuel r qid txt).1
        (recs ++ [(qid, txt.take maxLen)]) := by
  obtain ⟨htail, hhead, hlt, hlaid, hbounds⟩ := hrep
  set qlen := min txt.length maxLen with hqlen
  have hqlen0 : qlen ≠ 0 := by
    have : txt.length ≠ 0 := by simpa [List.length_eq_zero] using htxt
    simp only [hqlen]
    omega
  have habsent : (locate_query cap fuel r qid false).1 = 0 := by
    unfold locate_query
    rw [htail]
    exact locateGo_absent cap r.buf qid r.head false recs 0 fuel none
      hlaid (fun p hp => (hbounds p hp).1) (by omega) (by omega) hnot hfuel
  have hcheck : ¬ (locate_query cap fuel r qid false).1 = qid := by
    rw [habsent]; exact fun h => hq0 h.symm
  have hnowrap : ¬ cap ≤ r.head + qlen + 8 + 8 := by omega
  have hnohead : ¬ r.head + qlen + 8 + 8 = r.head := by omega
  set buf1 := writeBytes r.buf r.head (toBytesLE 8 qid) with hbuf1
  set buf2 := writeBytes buf1 (r.head + 8) (toBytesLE 8 qlen) with hbuf2
  set buf3 := writeBytes buf2 (r.head + 16) (txt.take qlen) with hbuf3
  have hstore : store_query cap maxLen fuel r qid txt =
      (⟨buf3, r.head + qlen + 8 + 8, r.tail⟩, none) := by
    unfold store_query
    simp only [← hqlen]
    rw [if_neg hcheck, if_neg hnowrap, if_neg hnohead]
  rw [hstore]
  refine ⟨rfl, ?_⟩
  have htake : txt.take qlen = txt.take maxLen := take_min_eq txt maxLen
  have htakelen : (txt.take maxLen).length = qlen := by
    rw [List.length_take]; omega
  have hsznew : sizeSum (recs ++ [(qid, txt.take maxLen)]) =
      sizeSum recs + (16 + qlen) := by
    rw [sizeSum_append]
    simp [sizeSum, recSize, htakelen]
  -- bytes below the old head are untouched by the three writes
  have hagree : ∀ i, i < r.head → buf3 i = r.buf i := by
    intro i hi
    rw [hbuf3, writeBytes_apply_lt _ _ _ _ (by omega),
        hbuf2, writeBytes_apply_lt _ _ _ _ (by omega),
        hbuf1, writeBytes_apply_lt _ _ _ _ (by omega)]
  refine ⟨htail, ?_, ?_, ?_, ?_⟩
  · show r.head + qlen + 8 + 8 = sizeSum (recs ++ [(qid, txt.take maxLen)])
    rw [hsznew]
    omega
  · show sizeSum (recs ++ [(qid, txt.take maxLen)]) < cap
    rw [hsznew]
    omega
  · show laidOut buf3 0 (recs ++ [(qid, txt.take maxLen)])
    rw [laidOut_append]
    constructor
    · exact laidOut_congr r.buf buf3 recs 0 (fun i hi => hagree i (by omega)) hlaid
    · rw [Nat.zero_add, ← hhead]
      refine ⟨⟨?_, ?_, ?_⟩, trivial⟩
      · -- the 8-byte fingerprint header
        show readLE 8 buf3 r.head = qid
        have h1 : readLE 8 buf3 r.head = readLE 8 buf1 r.head := by
          apply readLE_congr
          intro i hi1 hi2
          rw [hbuf3, writeBytes_apply_lt _ _ _ _ (by omega),
              hbuf2, writeBytes_apply_lt _ _ _ _ (by omega)]
        rw [h1, hbuf1, readLE_writeBytes]
        have h2 : (256 : Nat) ^ 8 = 2 ^ 64 := by norm_num
        rw [h2]
        exact Nat.mod_eq_of_lt hqlt
      · -- the 8-byte length header
        show readLE 8 buf3 (r.head + 8) = (txt.take maxLen).length
        have h1 : readLE 8 buf3 (r.head + 8) = readLE 8 buf2 (r.head + 8) := by
          apply readLE_congr
          intro i hi1 hi2
          rw [hbuf3, writeBytes_apply_lt _ _ _ _ (by omega)]
        rw [htakelen, h1, hbuf2, readLE_writeBytes]
        have h2 : (256 : Nat) ^ 8 = 2 ^ 64 := by norm_num
        rw [h2]
        exact Nat.mod_eq_of_lt (by omega)
      · -- the text bytes
        intro i hi
        show buf3 (r.head + 16 + i) = (txt.take maxLen).getD i 0
        rw [htakelen] at hi
        rw [hbuf3, writeBytes_apply_in buf2 (r.head + 16) (txt.take qlen)
              (r.head + 16 + i) (by omega) (by rw [List.length_take]; omega)]
        rw [htake]
        congr 1
        omega
  · intro p hp
    rcases List.mem_append.mp hp with h | h
    · exact hbounds p h
    · rcases List.mem_singleton.mp h with rfl
      refine ⟨?_, hqlt, ?_⟩
      · show ¬ txt.take maxLen = []
        intro hemp
        rw [hemp] at htakelen
        simp at htakelen
        omega
      · show (txt.take maxLen).length < 2 ^ 64
        omega

/-- After a successful, non-wrapping `store_query` of a fresh
fingerprint, `locate_query` with a caller buffer finds the record and
copies out exactly the (possibly truncated) stored text. -/
theorem locate_after_store (cap maxLen fuel fuel2 : Nat) (r : Ring)
    (recs : List (Nat × List Nat)) (qid : Nat) (txt : List Nat)
    (hrep : represents cap r recs)
    (hnot : qid ∉ recs.map Prod.fst) (hq0 : qid ≠ 0) (hqlt : qid < 2 ^ 64)
    (htxt : txt ≠ []) (hmax : 0 < maxLen)
    (hfit : sizeSum recs + (16 + min txt.length maxLen) < cap)
    (hcap64 : cap ≤ 2 ^ 64)
    (hfuel : recs.length + 1 ≤ fuel) (hfuel2 : recs.length + 1 ≤ fuel2) :
    locate_query cap fuel2 (store_query cap maxLen fuel r qid txt).1 qid true =
      (qid, some (txt.take maxLen)) := by
  obtain ⟨-, hrep1⟩ := store_query_append cap maxLen fuel r recs qid txt hrep hnot
    hq0 hqlt htxt hmax hfit hcap64 hfuel
  obtain ⟨htail, hhead, hlt, hlaid, hbounds⟩ := hrep1
  unfold locate_query
  rw [htail]
  have htxt2 : txt.take maxLen ≠ [] := by
    have := (hbounds (qid, txt.take maxLen) (by simp)).1
    exact this
  exact locateGo_finds cap _ qid (txt.take maxLen) _ recs 0 fuel2 none
    hlaid (fun p hp => (hbounds p (List.mem_append.mpr (Or.inl hp))).1) htxt2
    (by omega) (by omega) hnot hfuel2

/-- C1, counterexample.  Storing fingerprint 5 with the empty text into
an empty ring of capacity 64 succeeds (no rejection, a 16-byte record is
written and the head advances to 16), yet the subsequent
`locate_query` for fingerprint 5 returns 0 (absent) and copies no text:
`locate_query` treats a zero length header as end-of-data (src line
2604).  So a successful `store` is not always followed by a successful
`find`, refuting the claim as stated. -/
theorem c1_counterexample :
    (store_query 64 32 4 emptyRing 5 []).2 = none ∧
      (store_query 64 32 4 emptyRing 5 []).1.head = 16 ∧
      locate_query 64 4 (store_query 64 32 4 emptyRing 5 []).1 5 true = (0, none) := by
  decide

/-- C1, amended.  In a ring holding records `recs` (laid out from a
reset state, no wrap), storing a nonzero fingerprint `qid` that is not
yet in the ring, with a nonempty text, a positive configured per-query
maximum length, and a record that fits without wrapping the head,
succeeds; a subsequent `locate_query` for `qid` (with no intervening
rotation or reset) returns the originally stored text truncated to the
per-query maximum length (`PGSM_QUERY_MAX_LEN`), i.e. the text itself
whenever it is within that limit. -/
theorem c1_store_find_roundtrip (cap maxLen fuel fuel2 : Nat) (r : Ring)
    (recs : List (Nat × List Nat)) (qid : Nat) (txt : List Nat)
    (hrep : represents cap r recs)
    (hnot : qid ∉ recs.map Prod.fst) (hq0 : qid ≠ 0) (hqlt : qid < 2 ^ 64)
    (htxt : txt ≠ []) (hmax : 0 < maxLen)
    (hfit : sizeSum recs + (16 + min txt.length maxLen) < cap)
    (hcap64 : cap ≤ 2 ^ 64)
    (hfuel : recs.length + 1 ≤ fuel) (hfuel2 : recs.length + 1 ≤ fuel2) :
    (store_query cap maxLen fuel r qid txt).2 = none ∧
      locate_query cap fuel2 (store_query cap maxLen fuel r qid txt).1 qid true =
        (qid, some (txt.take maxLen)) :=
  ⟨(store_query_append cap maxLen fuel r recs qid txt hrep hnot hq0 hqlt
      htxt hmax hfit hcap64 hfuel).1,
    locate_after_store cap maxLen fuel fuel2 r recs qid txt hrep hnot hq0 hqlt
      htxt hmax hfit hcap64 hfuel hfuel2⟩

/-- C1, witness for the amended theorem at a concrete input: empty ring
of capacity 64, maximum length 32, fingerprint 1, text `[65]` (within
the limit, so the find returns it unchanged). -/
theorem c1_store_find_roundtrip_witness :
    represents 64 emptyRing [] ∧ ([65] : List Nat) ≠ [] ∧
      ((store_query 64 32 1 emptyRing 1 [65]).2 = none ∧
        locate_query 64 1 (store_query 64 32 1 emptyRing 1 [65]).1 1 true =
          (1, some [65])) := by
  have h := c1_store_find_roundtrip 64 32 1 1 emptyRing [] 1 [65] (by decide)
    (by decide) (by decide) (by decide) (by decide) (by decide) (by decide)
    (by decide) (by decide) (by decide)
  exact ⟨by decide, by decide, h.1, by simpa using h.2⟩

/-- C2, counterexample.  A store whose record would lap the tail —
overwriting/retiring unread data — is **not** rejected by the code: the
full-check (src line 2642) only compares the wrapped next-head against
the *head*, not the tail.  Concretely (capacity 64): after one 40-byte
record (`head = 40`, `tail = 0`, unread), storing a second query whose
record needs 24 bytes computes next-head `64 → 0 = tail`; the claim
says this write must be rejected with the ring left unchanged, but the
code emits no warning and moves the head. -/
theorem c2_counterexample :
    c2ring1.head = 40 ∧ c2ring1.tail = 0 ∧ c2next = c2ring1.tail ∧
      c2res2.2 = none ∧ c2res2.1.head = 0 := by
  decide

/-- C2, amended.  A store is rejected as "buffer full" precisely when
the computed next-head (wrapped to 0 when it reaches capacity) equals
the current *head*; a rejected store leaves the ring — bytes, head and
tail — completely unchanged, and its only observable effect is the
capacity warning `elog(INFO, ...)`. -/
theorem c2_reject_unchanged (cap maxLen fuel : Nat) (r : Ring) (qid : Nat)
    (txt : List Nat)
    (hnotpresent : ¬ (locate_query cap fuel r qid false).1 = qid)
    (hfull : (if cap ≤ r.head + min txt.length maxLen + 8 + 8 then 0
              else r.head + min txt.length maxLen + 8 + 8) = r.head) :
    store_query cap maxLen fuel r qid txt =
      (r, some "pg_stat_monitor: no space left in shared_buffer") := by
  unfold store_query
  rw [if_neg hnotpresent, if_pos hfull]

/-- C2, witness for the amended theorem: capacity 16, empty ring, empty
text — the 16-byte record header alone wraps the next-head to `0 =
head`, so the store is dropped with only the warning. -/
theorem c2_reject_unchanged_witness :
    ¬ (locate_query 16 1 emptyRing 1 false).1 = 1 ∧
      store_query 16 32 1 emptyRing 1 [] =
        (emptyRing, some "pg_stat_monitor: no space left in shared_buffer") :=
  ⟨by decide, c2_reject_unchanged 16 32 1 emptyRing 1 [] (by decide) (by decide)⟩

/-- C10.  Storing a text longer than `PGSM_QUERY_MAX_LEN` writes only
its first `PGSM_QUERY_MAX_LEN` bytes (src lines 2628–2629), so a
subsequent `locate_query` returns the truncated text, which differs
from the text originally passed to `store_query`. -/
theorem c10_truncation (cap maxLen fuel fuel2 : Nat) (r : Ring)
    (recs : List (Nat × List Nat)) (qid : Nat) (txt : List Nat)
    (hrep : represents cap r recs)
    (hnot : qid ∉ recs.map Prod.fst) (hq0 : qid ≠ 0) (hqlt : qid < 2 ^ 64)
    (hmax : 0 < maxLen) (hlong : maxLen < txt.length)
    (hfit : sizeSum recs + (16 + maxLen) < cap)
    (hcap64 : cap ≤ 2 ^ 64)
    (hfuel : recs.length + 1 ≤ fuel) (hfuel2 : recs.length + 1 ≤ fuel2) :
    locate_query cap fuel2 (store_query cap maxLen fuel r qid txt).1 qid true =
      (qid, some (txt.take maxLen)) ∧ txt.take maxLen ≠ txt := by
  have htxt : txt ≠ [] := by
    intro h
    rw [h] at hlong
    simp at hlong
  have hmin : min txt.length maxLen = maxLen := min_eq_right (by omega)
  have hfit2 : sizeSum recs + (16 + min txt.length maxLen) < cap := by
    rw [hmin]; exact hfit
  refine ⟨locate_after_store cap maxLen fuel fuel2 r recs qid txt hrep hnot hq0
    hqlt htxt hmax hfit2 hcap64 hfuel hfuel2, ?_⟩
  intro h
  have := congrArg List.length h
  rw [List.length_take] at this
  omega

/-- C10, witness: empty ring, `maxLen = 2`, text `[1, 2, 3]`; the find
returns `[1, 2]`, not `[1, 2, 3]`. -/
theorem c10_truncation_witness :
    (2 : Nat) < ([1, 2, 3] : List Nat).length ∧
      (locate_query 64 1 (store_query 64 2 1 emptyRing 1 [1, 2, 3]).1 1 true =
          (1, some [1, 2]) ∧ ([1, 2, 3] : List Nat).take 2 ≠ [1, 2, 3]) :=
  ⟨by decide,
    c10_truncation 64 2 1 1 emptyRing [] 1 [1, 2, 3] (by decide) (by decide)
      (by decide) (by decide) (by decide) (by decide) (by decide) (by decide)
      (by decide) (by decide)⟩

/-- C3, counterexample.  Rotating into bucket 1 (window elapsed) does
**not** clear that bucket's response-time histogram: `get_next_wbucket`
resets the text-ring head/tail and evicts entries but never touches
`resp_calls`, so bucket 1 still shows the 7 calls recorded in its
previous life. -/
theorem c3_counterexample :
    (get_next_wbucket 1 2 5 c3state).1 = 1 ∧
      (get_next_wbucket 1 2 5 c3state).2.respCalls 1 = [7] := by
  decide

/-- C3, amended.  When the configured window has elapsed at a record
call, the bucket id advances exactly once to `(previous + 1) mod
PGSM_MAX_BUCKETS`, every statistics entry and every rollup entry keyed
with the reused bucket id is evicted (others are kept), that bucket's
text-ring head and tail and entry counter are reset to 0, the rotation
timestamp is updated, and the current write bucket becomes the new id —
but the bucket's response-time histogram is left untouched, not
cleared. -/
theorem c3_rotation (cfg maxB now : Nat) (s : RotState)
    (helapsed : cfg < now - s.prev_bucket_usec)
    (hcur : s.current_wbucket < maxB) :
    (get_next_wbucket cfg maxB now s).1 = (s.current_wbucket + 1) % maxB ∧
      (∀ e ∈ (get_next_wbucket cfg maxB now s).2.stats,
        e.bucket_id ≠ (s.current_wbucket + 1) % maxB) ∧
      (∀ e ∈ s.stats, e.bucket_id ≠ (s.current_wbucket + 1) % maxB →
        e ∈ (get_next_wbucket cfg maxB now s).2.stats) ∧
      (∀ e ∈ (get_next_wbucket cfg maxB now s).2.agg,
        e.bucket_id ≠ (s.current_wbucket + 1) % maxB) ∧
      (∀ e ∈ s.agg, e.bucket_id ≠ (s.current_wbucket + 1) % maxB →
        e ∈ (get_next_wbucket cfg maxB now s).2.agg) ∧
      (get_next_wbucket cfg maxB now s).2.fifoHead ((s.current_wbucket + 1) % maxB) = 0 ∧
      (get_next_wbucket cfg maxB now s).2.fifoTail ((s.current_wbucket + 1) % maxB) = 0 ∧
      (get_next_wbucket cfg maxB now s).2.bucket_entry
        (((s.current_wbucket + 1) % maxB : Nat) : Int) = 0 ∧
      (get_next_wbucket cfg maxB now s).2.prev_bucket_usec = now ∧
      (get_next_wbucket cfg maxB now s).2.respCalls = s.respCalls ∧
      (pgss_update_bucket cfg maxB now s).current_wbucket =
        (s.current_wbucket + 1) % maxB := by
  have hb : (if s.current_wbucket + 1 = maxB then 0 else s.current_wbucket + 1) =
      (s.current_wbucket + 1) % maxB := by
    split
    · next h => rw [h, Nat.mod_self]
    · next h => rw [Nat.mod_eq_of_lt (by omega)]
  have hget : get_next_wbucket cfg maxB now s =
      ((s.current_wbucket + 1) % maxB,
        { entry_dealloc (((s.current_wbucket + 1) % maxB : Nat) : Int) s with
          fifoHead := fun x => if x = (s.current_wbucket + 1) % maxB then 0
            else (entry_dealloc (((s.current_wbucket + 1) % maxB : Nat) : Int) s).fifoHead x,
          fifoTail := fun x => if x = (s.current_wbucket + 1) % maxB then 0
            else (entry_dealloc (((s.current_wbucket + 1) % maxB : Nat) : Int) s).fifoTail x,
          prev_bucket_usec := now,
          bucketTimestamp := fun x => if x = (s.current_wbucket + 1) % maxB then now
            else (entry_dealloc (((s.current_wbucket + 1) % maxB : Nat) : Int) s).bucketTimestamp x }) := by
    unfold get_next_wbucket
    rw [if_pos helapsed, hb]
  have hmemf : ∀ (l : List StatKey) (e : StatKey),
      e ∈ l.filter (fun e => ¬ ((e.bucket_id : Int) = (((s.current_wbucket + 1) % maxB : Nat) : Int)
        ∨ (((s.current_wbucket + 1) % maxB : Nat) : Int) < 0)) ↔
      e ∈ l ∧ e.bucket_id ≠ (s.current_wbucket + 1) % maxB := by
    intro l e
    rw [List.mem_filter]
    simp only [decide_eq_true_eq]
    constructor
    · rintro ⟨h1, h2⟩
      exact ⟨h1, fun h => h2 (Or.inl (Nat.cast_inj.mpr h))⟩
    · rintro ⟨h1, h2⟩
      refine ⟨h1, fun h => ?_⟩
      rcases h with h | h
      · exact h2 (Nat.cast_inj.mp h)
      · omega
  have hmemg : ∀ (l : List AggKey) (e : AggKey),
      e ∈ l.filter (fun e => ¬ ((e.bucket_id : Int) = (((s.current_wbucket + 1) % maxB : Nat) : Int)
        ∨ (((s.current_wbucket + 1) % maxB : Nat) : Int) < 0)) ↔
      e ∈ l ∧ e.bucket_id ≠ (s.current_wbucket + 1) % maxB := by
    intro l e
    rw [List.mem_filter]
    simp only [decide_eq_true_eq]
    constructor
    · rintro ⟨h1, h2⟩
      exact ⟨h1, fun h => h2 (Or.inl (Nat.cast_inj.mpr h))⟩
    · rintro ⟨h1, h2⟩
      refine ⟨h1, fun h => ?_⟩
      rcases h with h | h
      · exact h2 (Nat.cast_inj.mp h)
      · omega
  refine ⟨by rw [hget], ?_, ?_, ?_, ?_, by rw [hget]; simp, by rw [hget]; simp,
    by rw [hget]; simp [entry_dealloc], by rw [hget], by rw [hget]; rfl, ?_⟩
  · intro e he
    rw [hget] at he
    exact ((hmemf s.stats e).mp he).2
  · intro e he hne
    rw [hget]
    exact (hmemf s.stats e).mpr ⟨he, hne⟩
  · intro e he
    rw [hget] at he
    exact ((hmemg s.agg e).mp he).2
  · intro e he hne
    rw [hget]
    exact (hmemg s.agg e).mpr ⟨he, hne⟩
  · have hfst : (get_next_wbucket cfg maxB now s).1 = (s.current_wbucket + 1) % maxB := by
      rw [hget]
    have hcurw : (get_next_wbucket cfg maxB now s).2.current_wbucket =
        s.current_wbucket := by
      rw [hget]
      rfl
    unfold pgss_update_bucket
    dsimp only
    split
    · exact hfst
    · next h =>
      simp only [ne_eq, not_not] at h
      rw [← h]
      exact hfst

/-- C3, witness for the amended theorem at the concrete state
`c3state` (window of 1s, 2 buckets, now = 5s). -/
theorem c3_rotation_witness :
    (1 : Nat) < 5 - c3state.prev_bucket_usec ∧ c3state.current_wbucket < 2 ∧
      ((get_next_wbucket 1 2 5 c3state).1 = (c3state.current_wbucket + 1) % 2 ∧
        (get_next_wbucket 1 2 5 c3state).2.prev_bucket_usec = 5 ∧
        (get_next_wbucket 1 2 5 c3state).2.respCalls = c3state.respCalls) := by
  have h := c3_rotation 1 2 5 c3state (by decide) (by decide)
  exact ⟨by decide, by decide, h.1, h.2.2.2.2.2.2.2.2.1, h.2.2.2.2.2.2.2.2.2.1⟩

/-- C4.  When the key is absent and either the table is at `PGSM_MAX`
or the current bucket has used its `PGSM_MAX / PGSM_MAX_BUCKETS` share,
the `pgss_store` miss path drops the measurement: no entry is created,
no existing entry (key or payload) is modified, no error is raised
(the function returns normally with `false`), and exactly in the
per-bucket-share case the bucket's overflow counter is incremented
(otherwise the state is returned completely unchanged). -/
theorem c4_capacity_drop (pgsmMax maxB : Nat) (usageInit : Rat) (s : AllocState)
    (key : StatKey) (sticky : Bool)
    (habsent : ¬ (s.entries.map Prod.fst).contains key)
    (hfull : pgsmMax ≤ s.entries.length ∨
      pgsmMax / maxB ≤ s.bucket_entry s.current_wbucket) :
    (pgss_store_alloc pgsmMax maxB usageInit s key sticky).2 = false ∧
      (pgss_store_alloc pgsmMax maxB usageInit s key sticky).1.entries = s.entries ∧
      (pgsmMax / maxB ≤ s.bucket_entry s.current_wbucket →
        (pgss_store_alloc pgsmMax maxB usageInit s key sticky).1.bucket_overflow
          s.current_wbucket = s.bucket_overflow s.current_wbucket + 1) ∧
      (¬ pgsmMax / maxB ≤ s.bucket_entry s.current_wbucket →
        (pgss_store_alloc pgsmMax maxB usageInit s key sticky).1 = s) := by
  unfold pgss_store_alloc entry_alloc
  rw [if_neg habsent]
  by_cases hshare : pgsmMax / maxB ≤ s.bucket_entry s.current_wbucket
  · rw [if_pos hshare]
    refine ⟨rfl, rfl, fun _ => by simp, fun h => absurd hshare h⟩
  · rw [if_neg hshare, if_pos (hfull.resolve_right hshare)]
    exact ⟨rfl, rfl, fun h => absurd h hshare, fun _ => rfl⟩

/-- C4, witness: a table of 2 entries with `PGSM_MAX = 2`,
`PGSM_MAX_BUCKETS = 1` — the bucket share `2/1` is reached, so a store
under a fresh key is dropped and the overflow counter ticks. -/
theorem c4_capacity_drop_witness :
    ¬ ((c4state.entries.map Prod.fst).contains (⟨3, 1, 1, 0⟩ : StatKey)) ∧
      ((pgss_store_alloc 2 1 1 c4state ⟨3, 1, 1, 0⟩ false).2 = false ∧
        (pgss_store_alloc 2 1 1 c4state ⟨3, 1, 1, 0⟩ false).1.entries = c4state.entries ∧
        (pgss_store_alloc 2 1 1 c4state ⟨3, 1, 1, 0⟩ false).1.bucket_overflow 0 =
          c4state.bucket_overflow 0 + 1) :=
  ⟨by decide,
    (c4_capacity_drop 2 1 1 c4state ⟨3, 1, 1, 0⟩ false (by decide)
      (Or.inr (by decide))).1,
    (c4_capacity_drop 2 1 1 c4state ⟨3, 1, 1, 0⟩ false (by decide)
      (Or.inr (by decide))).2.1,
    (c4_capacity_drop 2 1 1 c4state ⟨3, 1, 1, 0⟩ false (by decide)
      (Or.inr (by decide))).2.2.1 (by decide)⟩

theorem updateTimeStat_inv (st : TimeStat) (S Q x : Rat)
    (h : StatInv st S Q) :
    StatInv (updateTimeStat st x) (S + x) (Q + x ^ 2) ∧
      (updateTimeStat st x).calls = st.calls + 1 := by
  obtain ⟨htot, hzero, hpos⟩ := h
  rcases Nat.eq_zero_or_pos st.calls with h0 | hp
  · obtain ⟨hS, hQ, -, hv⟩ := hzero h0
    have h1 : st.calls + 1 = 1 := by omega
    have hupd : updateTimeStat st x =
        { calls := st.calls + 1, total_time := st.total_time + x, min_time := x,
          max_time := x, mean_time := x, sum_var_time := st.sum_var_time } := by
      unfold updateTimeStat
      rw [if_pos h1]
    rw [hupd]
    refine ⟨⟨?_, ?_, ?_⟩, rfl⟩
    · simp [htot]
    · intro h
      simp at h
    · intro _
      simp only [h1]
      constructor
      · simp [hS]
      · simp [hS, hQ, hv]
  · have h1 : ¬ st.calls + 1 = 1 := by omega
    have hc : (0 : Rat) < (st.calls : Rat) := by exact_mod_cast hp
    have hc1 : (0 : Rat) < ((st.calls : Rat) + 1) := by positivity
    obtain ⟨hmean, hvar⟩ := hpos hp
    have hupd : updateTimeStat st x =
        { calls := st.calls + 1, total_time := st.total_time + x,
          min_time := if x < st.min_time then x else st.min_time,
          max_time := if st.max_time < x then x else st.max_time,
          mean_time := st.mean_time + (x - st.mean_time) / ((st.calls : Rat) + 1),
          sum_var_time := st.sum_var_time + (x - st.mean_time) *
            (x - (st.mean_time + (x - st.mean_time) / ((st.calls : Rat) + 1))) } := by
      unfold updateTimeStat
      rw [if_neg h1]
      push_cast
      rfl
    rw [hupd]
    refine ⟨⟨?_, ?_, ?_⟩, rfl⟩
    · simp [htot]
    · intro h
      simp at h
    · intro _
      simp only
      push_cast
      constructor
      · rw [hmean]
        field_simp
        ring
      · rw [hvar, hmean]
        field_simp
        ring

theorem runTimeStats_inv :
    ∀ (xs : List Rat) (st : TimeStat) (S Q : Rat), StatInv st S Q →
      StatInv (xs.foldl updateTimeStat st) (S + xs.sum)
        (Q + (xs.map fun x => x ^ 2).sum) ∧
      (xs.foldl updateTimeStat st).calls = st.calls + xs.length
  | [], st, S, Q, h => by simpa using h
  | x :: xs, st, S, Q, h => by
    obtain ⟨hstep, hc⟩ := updateTimeStat_inv st S Q x h
    obtain ⟨hrec, hcrec⟩ := runTimeStats_inv xs (updateTimeStat st x) (S + x) (Q + x ^ 2) hstep
    constructor
    · simpa [add_assoc] using hrec
    · simp only [List.foldl_cons, List.length_cons] at hcrec ⊢
      omega

theorem sum_sq_sub (μ : Rat) :
    ∀ xs : List Rat, (xs.map fun x => (x - μ) ^ 2).sum =
      (xs.map fun x => x ^ 2).sum - 2 * μ * xs.sum + xs.length * μ ^ 2
  | [] => by simp
  | x :: xs => by
    simp only [List.map_cons, List.sum_cons, List.length_cons, sum_sq_sub μ xs]
    push_cast
    ring

theorem directSumSqDev_closed (xs : List Rat) (h : xs ≠ []) :
    directSumSqDev xs = (xs.map fun x => x ^ 2).sum - xs.sum ^ 2 / xs.length := by
  have hn : (0 : Rat) < (xs.length : Rat) := by
    have : 0 < xs.length := List.length_pos.mpr h
    exact_mod_cast this
  unfold directSumSqDev directMean
  rw [sum_sq_sub]
  field_simp
  ring

/-- C5.  The incrementally maintained mean and running-variance
accumulator (Welford's method, src lines 978–1002) agree exactly (in
exact arithmetic) with the direct two-pass mean and sum of squared
deviations for any sequence of ≥ 2 measurements; in particular
`[10, 20, 30]` gives mean 20, accumulator 200, population variance
`200/3` — `66.67` after rounding to two decimals. -/
theorem c5_welford (xs : List Rat) (h2 : 2 ≤ xs.length) :
    (runTimeStats xs).calls = xs.length ∧
      (runTimeStats xs).mean_time = directMean xs ∧
      (runTimeStats xs).sum_var_time = directSumSqDev xs ∧
      (runTimeStats [10, 20, 30]).mean_time = 20 ∧
      (runTimeStats [10, 20, 30]).sum_var_time = 200 ∧
      (runTimeStats [10, 20, 30]).sum_var_time /
        ((runTimeStats [10, 20, 30]).calls : Rat) = 200 / 3 ∧
      round ((200 : Rat) / 3 * 100) = 6667 := by
  have hinit : StatInv initTimeStat 0 0 := by
    refine ⟨rfl, fun _ => ⟨rfl, rfl, rfl, rfl⟩, fun h => ?_⟩
    simp [initTimeStat] at h
  obtain ⟨⟨htot, hzero, hpos⟩, hcalls⟩ := runTimeStats_inv xs initTimeStat 0 0 hinit
  have hne : xs ≠ [] := by
    intro h
    rw [h] at h2
    simp at h2
  have hcalls2 : (runTimeStats xs).calls = xs.length := by
    simpa [runTimeStats, initTimeStat] using hcalls
  have hp : 0 < (runTimeStats xs).calls := by omega
  obtain ⟨hmean, hvar⟩ := hpos hp
  refine ⟨hcalls2, ?_, ?_,
    by norm_num [runTimeStats, updateTimeStat, initTimeStat],
    by norm_num [runTimeStats, updateTimeStat, initTimeStat],
    by norm_num [runTimeStats, updateTimeStat, initTimeStat], ?_⟩
  · rw [runTimeStats] at hcalls2 ⊢
    rw [hmean, hcalls2, directMean]
    simp
  · rw [runTimeStats] at hcalls2 ⊢
    rw [hvar, hcalls2, directSumSqDev_closed xs hne]
    simp
  · rw [round_eq, show (200 : Rat) / 3 * 100 + 1 / 2 = 40003 / 6 by norm_num]
    rw [Int.floor_eq_iff]
    constructor
    · norm_num
    · norm_num

/-- C5, witness at `[10, 20, 30]`. -/
theorem c5_welford_witness :
    2 ≤ ([10, 20, 30] : List Rat).length ∧
      ((runTimeStats [10, 20, 30]).calls = 3 ∧
        (runTimeStats [10, 20, 30]).mean_time = directMean [10, 20, 30] ∧
        (runTimeStats [10, 20, 30]).sum_var_time = directSumSqDev [10, 20, 30]) := by
  have h := c5_welford [10, 20, 30] (by decide)
  exact ⟨by decide, by simpa using h.1, h.2.1, h.2.2.1⟩

/-- C6, the failing input.  With lower bound 0, step 1 and
`MAX_RESPONSE_BUCKET = 3`, a recorded duration of 2 increments **no**
histogram cell: the `for` loop only covers cells `0 … N-2` (conditions
`t < 0` and `t < 1`), and the catch-all check requires `t > 0 + 1*3`;
durations in `[lower + step*(N-2), lower + step*N]` fall into the gap.
The claim (and spec §8) require exactly one cell per duration. -/
theorem c6_histogram_gap :
    respUpdate 0 1 3 2 (fun _ => 0) 0 = 0 ∧
      respUpdate 0 1 3 2 (fun _ => 0) 1 = 0 ∧
      respUpdate 0 1 3 2 (fun _ => 0) 2 = 0 := by
  suffices h : ∀ j : Nat, respUpdate 0 1 3 2 (fun _ => 0) j = 0 from ⟨h 0, h 1, h 2⟩
  have hfind : (List.range (3 - 1)).find?
      (fun i : Nat => decide ((2 : Rat) < 0 + 1 * (i : Rat))) = none := by
    rw [show List.range (3 - 1) = [0, 1] from rfl]
    rw [List.find?_cons_of_neg, List.find?_cons_of_neg, List.find?_nil]
    · simp only [decide_eq_true_eq]
      push_cast
      norm_num
    · simp only [decide_eq_true_eq]
      push_cast
      norm_num
  intro j
  unfold respUpdate
  rw [hfind]
  rw [if_neg (by push_cast; norm_num : ¬ (0 : Rat) + 1 * ((3 : Nat) : Rat) < 2)]

/-- C8.  `entry_reset` on a store whose bucket table holds the
pre-created bucket keys 0 and 1 (and likewise two wait-event slots)
never completes: after the rollup loop, `dbentry` is NULL, and the
bucket-table loop dereferences it on its first iteration — the reset
crashes instead of emptying the tables (and crashes just the same when
only the wait-event table is nonempty).  Only with both of those
tables already empty does the reset run to completion and empty the
statistics and rollup tables.  This contradicts the claim that after a
reset every table of the store is empty, each entry removed under its
own key. -/
theorem c8_reset_crashes :
    entry_reset ⟨[⟨10, 20, 30, 0⟩], [⟨40, 0, 30, 0⟩], [0, 1], [0, 1], 0⟩ = none ∧
      entry_reset ⟨[⟨10, 20, 30, 0⟩], [⟨40, 0, 30, 0⟩], [], [0, 1], 0⟩ = none ∧
      entry_reset ⟨[⟨10, 20, 30, 0⟩], [⟨40, 0, 30, 0⟩], [], [], 3⟩ =
        some ⟨[], [], [], [], 0⟩ := by
  decide

theorem foldIfFull_length (B : Nat) (hB : 8 < B) (hv : List Nat → Nat)
    (jumble : List Nat) (h : jumble.length ≤ B) :
    (foldIfFull B hv jumble).length < B := by
  unfold foldIfFull
  split
  · have h8 : (toBytesLE 8 (hv (jumble.take B))).length = 8 := rfl
    omega
  · next hnot => omega

/-- C9.  Invariant of the jumble accumulator: starting from a buffer
within its fixed size `B` (`JUMBLE_SIZE`), appending any item keeps the
buffer's length at most `B` — whenever the buffer is full the fold
first replaces its contents by the fixed-size (8-byte) hash, so memory
use stays bounded for every appended sequence. -/
theorem c9_jumble_bounded (B : Nat) (hB : 8 < B) (hv : List Nat → Nat)
    (jumble item : List Nat) (hlen : jumble.length ≤ B) :
    (appendJumble B hB hv jumble item).length ≤ B := by
  suffices H : ∀ (n : Nat) (it jb : List Nat), it.length ≤ n → jb.length ≤ B →
      (appendJumble B hB hv jb it).length ≤ B from
    H item.length item jumble le_rfl hlen
  intro n
  induction n with
  | zero =>
    intro it jb h1 h2
    have : it = [] := List.length_eq_zero.mp (by omega)
    rw [this, appendJumble]
    exact h2
  | succ n ih =>
    intro it jb h1 h2
    cases it with
    | nil =>
      rw [appendJumble]
      exact h2
    | cons x xs =>
      rw [appendJumble]
      have hfl : (foldIfFull B hv jb).length < B := foldIfFull_length B hB hv jb h2
      apply ih
      · simp only [List.length_drop]
        have hp : 1 ≤ partSize B hv jb (x :: xs) := by
          unfold partSize
          have : 0 < (x :: xs).length := by simp
          omega
        have h3 : (x :: xs).length ≤ n + 1 := h1
        omega
      · rw [List.length_append, List.length_take]
        unfold partSize
        omega

/-- C9, witness: `B = 16`, zero hash, empty buffer, a 20-byte item. -/
theorem c9_jumble_bounded_witness :
    ([] : List Nat).length ≤ 16 ∧
      (appendJumble 16 (by omega) (fun _ => 0) [] (List.replicate 20 3)).length ≤ 16 :=
  ⟨by decide,
    c9_jumble_bounded 16 (by omega) (fun _ => 0) [] (List.replicate 20 3) (by decide)⟩

/-- A range table containing an entry of unrecognized kind always makes
`JumbleRangeTable` abort with `elog(ERROR, ...)` — either at that entry
or at an error raised even earlier inside a recognized entry. -/
theorem jumbleRangeTable_unknown_errors :
    ∀ (l : RTEList), containsUnknownRTE l = true →
      ∀ s : JState, ∃ msg, jumbleRangeTable l s = .error msg
  | .nil, hl => by simp [containsUnknownRTE] at hl
  | .cons (.rteUnknown k) rest, _ => fun _ => ⟨"unrecognized RTE kind", rfl⟩
  | .cons (.rteRelation relid ts) rest, hl => by
    intro s
    have hl' : containsUnknownRTE rest = true := hl
    cases hres : jumbleExprOpt ts (appJ relid (appJ (rteKind (.rteRelation relid ts)) s)) with
    | error e =>
      refine ⟨e, ?_⟩
      simp only [jumbleRangeTable, hres]
      rfl
    | ok s1 =>
      obtain ⟨msg, hmsg⟩ := jumbleRangeTable_unknown_errors rest hl' s1
      refine ⟨msg, ?_⟩
      simp only [jumbleRangeTable, hres]
      exact hmsg
  | .cons (.rteJoin jt) rest, hl => by
    intro s
    have hl' : containsUnknownRTE rest = true := hl
    obtain ⟨msg, hmsg⟩ :=
      jumbleRangeTable_unknown_errors rest hl' (appJ jt (appJ (rteKind (.rteJoin jt)) s))
    exact ⟨msg, hmsg⟩
  | .cons (.rteCTE name lvl) rest, hl => by
    intro s
    have hl' : containsUnknownRTE rest = true := hl
    obtain ⟨msg, hmsg⟩ := jumbleRangeTable_unknown_errors rest hl'
      (appJ lvl (appJStr name (appJ (rteKind (.rteCTE name lvl)) s)))
    exact ⟨msg, hmsg⟩
  | .cons (.rteSubquery q) rest, hl => by
    intro s
    have hl' : containsUnknownRTE rest = true := hl
    cases hres : jumbleQuery q (appJ (rteKind (.rteSubquery q)) s) with
    | error e =>
      refine ⟨e, ?_⟩
      simp only [jumbleRangeTable, hres]
      rfl
    | ok s1 =>
      obtain ⟨msg, hmsg⟩ := jumbleRangeTable_unknown_errors rest hl' s1
      refine ⟨msg, ?_⟩
      simp only [jumbleRangeTable, hres]
      exact hmsg

/-- C7, counterexample.  Fingerprinting a range table containing an
entry of unrecognized kind does **not** log-and-skip: the default case
of `JumbleRangeTable` (src line 1636) raises `elog(ERROR, ...)`, which
aborts the traversal — unlike `JumbleExpr`'s `elog(INFO, ...)`. -/
theorem c7_counterexample :
    jumbleRangeTable (.cons (.rteUnknown 42) .nil) ⟨[], [], []⟩ =
      .error "unrecognized RTE kind" := rfl

/-- C7, amended.  An *expression* node of unrecognized kind only
appends its tag, logs `"unrecognized node type"` and is skipped, and
the traversal continues with the remaining siblings; but a
*range-table entry* of unrecognized kind raises an error that aborts
fingerprinting. -/
theorem c7_unknown_handling (t : Nat) (s : JState) (rest : ExprList)
    (l : RTEList) (s2 : JState) (hl : containsUnknownRTE l = true) :
    jumbleExpr (.eunknown t) s =
      .ok { s with jumble := s.jumble ++ [t],
                   log := s.log ++ ["unrecognized node type"] } ∧
      jumbleExprList (.cons (.eunknown t) rest) s =
        jumbleExprList rest { s with jumble := s.jumble ++ [t],
                                     log := s.log ++ ["unrecognized node type"] } ∧
      ∃ msg, jumbleRangeTable l s2 = .error msg :=
  ⟨rfl, rfl, jumbleRangeTable_unknown_errors l hl s2⟩

/-- C7, witness: an unknown expression node with tag 7, and a range
table `[RTE_RELATION 5, unknown-kind 9]`. -/
theorem c7_unknown_handling_witness :
    containsUnknownRTE (.cons (.rteRelation 5 none) (.cons (.rteUnknown 9) .nil)) = true ∧
      (jumbleExpr (.eunknown 7) ⟨[], [], []⟩ =
          .ok ⟨[7], [], ["unrecognized node type"]⟩ ∧
        ∃ msg, jumbleRangeTable
          (.cons (.rteRelation 5 none) (.cons (.rteUnknown 9) .nil)) ⟨[], [], []⟩ =
            .error msg) := by
  have h := c7_unknown_handling 7 ⟨[], [], []⟩ .nil
    (.cons (.rteRelation 5 none) (.cons (.rteUnknown 9) .nil)) ⟨[], [], []⟩ rfl
  exact ⟨rfl, by simpa using h.1, h.2.2⟩

end PgStatMonitor
